import Mathlib

/-!
Verification of the fuzzy project-search engine of `app_busca_streamlit.py`.

Strings are modeled as lists of Unicode code points (`List Nat`), restricted
to the ASCII behaviour of the Python string primitives that the code uses
(`str.lower`, `re.sub(r'\s+', ' ', _)`, `str.strip`).  The third-party
similarity scorer (`fuzzywuzzy.fuzz.token_set_ratio`) is treated as an
abstract external capability, exactly as the specification prescribes; the
top-K primitive `fuzzywuzzy.process.extract` is modeled by its documented
semantics: score every choice, stable sort by score descending
(`heapq.nlargest`), truncate to the limit.
-/

namespace Busca

/-- Strings as lists of code points. -/
abbrev Str := List Nat

/-- Embed a Lean string literal as a list of code points (for concrete inputs). -/
def str (s : String) : Str := s.data.map Char.toNat

/-- Python `\s` on ASCII input: space, tab, newline, carriage return,
vertical tab, form feed. -/
def pyIsSpace (c : Nat) : Bool :=
  c = 32 || c = 9 || c = 10 || c = 13 || c = 11 || c = 12

/-- Python `str.lower` on one ASCII code point. -/
def pyLowerChar (c : Nat) : Nat := if 65 ≤ c ∧ c ≤ 90 then c + 32 else c

/-- Python `str.lower` (ASCII model). -/
def pyLower (s : Str) : Str := s.map pyLowerChar

/-- Worker for `re.sub(r'\s+', ' ', s)`: the flag records whether the previous
character was whitespace (i.e. whether a whitespace run is in progress). -/
def collapseAux : Bool → Str → Str
  | _, [] => []
  | true, c :: cs =>
    if pyIsSpace c then collapseAux true cs else c :: collapseAux false cs
  | false, c :: cs =>
    if pyIsSpace c then 32 :: collapseAux true cs else c :: collapseAux false cs

/-- `re.sub(r'\s+', ' ', s)`: every maximal whitespace run becomes one space. -/
def collapseWs (s : Str) : Str := collapseAux false s

/-- Python `str.strip`: drop whitespace from both ends. -/
def pyStrip (s : Str) : Str :=
  ((s.dropWhile pyIsSpace).reverse.dropWhile pyIsSpace).reverse

/-- Drop trailing whitespace only (right strip). -/
def rstrip (s : Str) : Str := (s.reverse.dropWhile pyIsSpace).reverse

/-- The body of `limpar_descricoes` for a single entry
(`app_busca_streamlit.py`, lines 25-26), and also the query normalization of
the search block (lines 240-241):
`desc_limpa = str(desc).lower(); desc_limpa = re.sub(r'\s+', ' ', desc_limpa).strip()`. -/
def limparUm (s : Str) : Str := pyStrip (collapseWs (pyLower s))

/-- `limpar_descricoes` (lines 22-28): clean every description. -/
def limpar_descricoes (descricoes : List Str) : List Str := descricoes.map limparUm

/-- Join a list of words with single spaces (`" ".join`). -/
def joinSp : List Str → Str
  | [] => []
  | [w] => w
  | w :: ws => w ++ 32 :: joinSp ws

/-- Worker for `pyWords`: `cur` is the reversed prefix of the word currently
being read. -/
def wordsAux (cur : Str) : Str → List Str
  | [] => if cur = [] then [] else [cur.reverse]
  | c :: cs =>
    if pyIsSpace c then
      if cur = [] then wordsAux [] cs else cur.reverse :: wordsAux [] cs
    else wordsAux (c :: cur) cs

/-- Python `str.split()` with no argument: the whitespace-separated words,
in order, with no empty words. -/
def pyWords (s : Str) : List Str := wordsAux [] s

/-- Is the code point an ASCII letter? (model of Python `str.isalpha`). -/
def isAlphaChar (c : Nat) : Bool := (65 ≤ c && c ≤ 90) || (97 ≤ c && c ≤ 122)

/-- Follows the words of the specification for the claimed normalizer
(spec 4.1): lowercase, collapse whitespace, tokenize, drop tokens that are
in the configured stopword set, drop tokens containing any non-alphabetic
character, rejoin with single spaces.  The stopword set is left as a
parameter: no stopword list occurs anywhere in the source.  This definition
exists only to be compared against `limparUm`, the normalizer the code
actually has. -/
def normalize_claimed (stopwords : List Str) (s : Str) : Str :=
  joinSp (((pyWords (collapseWs (pyLower s))).filter
    (fun w => decide (w ∉ stopwords))).filter (fun w => w.all isAlphaChar))

/-- One raw uploaded row, restricted to the four required logical columns
(`ID do Projeto`, `Nome do Projeto`, `Descrição`, `Custo proposto`);
`none` models a null cell. -/
structure RawRow where
  idProjeto : Option Str
  nomeProjeto : Option Str
  descricao : Option Str
  custoProposto : Option Int
deriving DecidableEq

/-- One prepared record: the four required columns plus the cached
`Descrições_limpas` column added by `processar_arquivo`. -/
structure Projeto where
  idProjeto : Str
  nomeProjeto : Str
  descricao : Str
  custoProposto : Int
  descricaoLimpa : Str
deriving DecidableEq

/-- Does the row have a non-null value in all four required columns?
(the rows `df.dropna()` keeps). -/
def rowCompleta (r : RawRow) : Bool :=
  r.idProjeto.isSome && r.nomeProjeto.isSome && r.descricao.isSome &&
    r.custoProposto.isSome

/-- Keep a complete row, attaching the cleaned description
(`df_processado['Descrições_limpas'] = limpar_descricoes(...)`). -/
def toProjeto (r : RawRow) : Option Projeto :=
  match r.idProjeto, r.nomeProjeto, r.descricao, r.custoProposto with
  | some i, some n, some d, some c => some ⟨i, n, d, c, limparUm d⟩
  | _, _, _, _ => none

/-- `processar_arquivo`, lines 91-102 (the part after ingestion/column
mapping, which the spec assigns to the external collaborator): select the
required columns, drop rows with nulls, fail (`st.error` + `return None`,
modeled as `none`) when nothing remains, else cache cleaned descriptions. -/
def processar_arquivo (rows : List RawRow) : Option (List Projeto) :=
  let kept := rows.filterMap toProjeto
  if kept.isEmpty then none else some kept

/-- Descending comparison on the score component, used for the stable
descending sort inside `process.extract` (`heapq.nlargest`). -/
def scoreDesc {α : Type} (a b : α × Nat) : Bool := b.2 ≤ a.2

/-- `fuzzywuzzy.process.extract(query, choices, scorer, limit)`: score every
choice, stable sort by score descending, truncate to `limit`.  The scorer
(`fuzz.token_set_ratio` in the code) is an abstract parameter. -/
def extract (sc : Str → Str → Nat) (q : Str) (choices : List Str)
    (limit : Nat) : List (Str × Nat) :=
  ((choices.map (fun c => (c, sc q c))).mergeSort scoreDesc).take limit

/-- One row of the `resultados` list built by the search block
(lines 252-262). -/
structure Resultado where
  id : Str
  nome : Str
  descricao : Str
  custo : Int
  similaridade : Nat
deriving DecidableEq

/-- Build one `resultados` entry from the looked-up record and the score. -/
def buildResultado (p : Projeto) (score : Nat) : Resultado :=
  ⟨p.idProjeto, p.nomeProjeto, p.descricao, p.custoProposto, score⟩

/-- The ranking computation of the search block (lines 240-262): normalize
the query, run `process.extract` over the cleaned descriptions with the
configured limit, and for every match at or above the precision threshold
look up the first record with that cleaned description and emit a result
row. -/
def rank (sc : Str → Str → Nat) (ds : List Projeto) (busca : Str)
    (precisao : Nat) (limite : Nat) : List Resultado :=
  (extract sc (limparUm busca) (ds.map (fun p => p.descricaoLimpa))
      limite).filterMap
    (fun m =>
      if precisao ≤ m.2 then
        (ds.find? (fun p => p.descricaoLimpa == m.1)).map
          (fun p => buildResultado p m.2)
      else none)

/-- The guarded search of line 237: `if (buscar_btn or busca) and
busca.strip():`.  When the query strips to empty the whole search block is
skipped (`none`); otherwise the ranking runs.  (When `busca.strip()` is
truthy, `busca` is nonempty, so the left conjunct is truthy regardless of
the button.) -/
def buscar (sc : Str → Str → Nat) (ds : List Projeto) (busca : Str)
    (precisao : Nat) (limite : Nat) : Option (List Resultado) :=
  if pyStrip busca = [] then none
  else some (rank sc ds busca precisao limite)

/-- `process.extract` with the tie order pinned explicitly: the scored
choices are decorated with their positions and sorted by the strict
lexicographic order "score descending, then position ascending"
(`List.enumLE scoreDesc`). -/
def extract_det (sc : Str → Str → Nat) (q : Str) (choices : List Str)
    (limit : Nat) : List (Str × Nat) :=
  ((((choices.map (fun c => (c, sc q c))).enum.mergeSort
      (List.enumLE scoreDesc)).map (fun a => a.2)).take limit)

/-- `rank` with the tie order pinned explicitly by `extract_det`: ties in
score are ordered by dataset position, a strict total order, so the output
(including tie order) is a function of the inputs alone. -/
def rank_det (sc : Str → Str → Nat) (ds : List Projeto) (busca : Str)
    (precisao : Nat) (limite : Nat) : List Resultado :=
  (extract_det sc (limparUm busca) (ds.map (fun p => p.descricaoLimpa))
      limite).filterMap
    (fun m =>
      if precisao ≤ m.2 then
        (ds.find? (fun p => p.descricaoLimpa == m.1)).map
          (fun p => buildResultado p m.2)
      else none)

/-- The single-field, single-scorer pipeline stated the other way around:
score every record's cleaned description once, stable sort descending,
keep the scores at or above the threshold, truncate to the limit, and then
build the result rows.  (`rank` truncates before filtering; this definition
filters before truncating.) -/
def rank_desc_only (sc : Str → Str → Nat) (ds : List Projeto) (busca : Str)
    (precisao : Nat) (limite : Nat) : List Resultado :=
  (((((ds.map (fun p => p.descricaoLimpa)).map
      (fun c => (c, sc (limparUm busca) c))).mergeSort scoreDesc).filter
        (fun m => precisao ≤ m.2)).take limite).filterMap
    (fun m =>
      (ds.find? (fun p => p.descricaoLimpa == m.1)).map
        (fun p => buildResultado p m.2))

/-- Stable insert: place `a` after every already-present entry with a score
at least `a`'s. -/
def insertDesc {α : Type} (a : α × Nat) : List (α × Nat) → List (α × Nat)
  | [] => [a]
  | b :: l => if scoreDesc b a then b :: insertDesc a l else a :: b :: l

/-- Stable descending sort by score (insertion sort); used by the
spec-modelled pipeline `rank_claimed`, where the spec asks only for "a
stable sort by score descending". -/
def isortDesc {α : Type} : List (α × Nat) → List (α × Nat)
  | [] => []
  | a :: l => insertDesc a (isortDesc l)

/-- Modelled from the spec (4.3), for comparison with `rank`: the claimed
ranking pipeline, which scores BOTH fields (description and name, both
normalized) under BOTH scoring strategies (token-set and partial token-set,
abstract parameters `scTs` and `scPart`), takes the top-K of each of the
four passes, filters by the threshold, deduplicates by record position
keeping the maximal score, and stable sorts descending.  No such pipeline
exists in the source: the search block scores only the cleaned description
under `fuzz.token_set_ratio`. -/
def rank_claimed (scTs scPart : Str → Str → Nat) (ds : List Projeto)
    (busca : Str) (precisao : Nat) (limite : Nat) : List Resultado :=
  let q := limparUm busca
  let pass := fun (sc : Str → Str → Nat) (field : Projeto → Str) =>
    (isortDesc (ds.enum.map
      (fun ip => (ip.1, sc q (limparUm (field ip.2)))))).take limite
  let all := pass scTs (fun p => p.descricao) ++
    pass scPart (fun p => p.descricao) ++
    pass scTs (fun p => p.nomeProjeto) ++
    pass scPart (fun p => p.nomeProjeto)
  let kept := all.filter (fun c => precisao ≤ c.2)
  let melhor := (List.range ds.length).filterMap (fun i =>
    ((kept.filter (fun c => c.1 = i)).map (fun c => c.2)).max?.map
      (fun m => (i, m)))
  (isortDesc melhor).filterMap
    (fun im => ds[im.1]?.map (fun p => buildResultado p im.2))

/-! Concrete inputs for counterexamples and witnesses. -/

/-- Scorer returning 100 on equal strings and 0 otherwise (a concrete
instance of the abstract similarity capability: any scorer of the family
scores identical strings 100). -/
def scEq : Str → Str → Nat := fun a b => if a = b then 100 else 0

/-- Scorer returning 0 always. -/
def scZero : Str → Str → Nat := fun _ _ => 0

/-- Scorer returning 90 always. -/
def sc90 : Str → Str → Nat := fun _ _ => 90

/-- A one-record dataset (already prepared: the cleaned description is the
`limparUm` image of the description). -/
def ds0 : List Projeto := [⟨str "1", str "n", str "d", 1, str "d"⟩]

/-- A two-record dataset whose records share the same cleaned description. -/
def dsDup : List Projeto :=
  [⟨str "1", str "n1", str "a", 1, str "a"⟩,
   ⟨str "2", str "n2", str "a", 2, str "a"⟩]

/-- A one-record dataset whose NAME matches the query `"alfa"` exactly while
its description does not. -/
def dsC1 : List Projeto := [⟨str "1", str "alfa", str "beta", 7, str "beta"⟩]

/-- A raw row whose `Custo proposto` cell is null (the spec's
"every row is missing `cost`" scenario). -/
def rawSemCusto : RawRow := ⟨some (str "1"), some (str "n"), some (str "d"), none⟩

/-- The result row produced from the sole record of `ds0` with score 90. -/
def res90 : Resultado := ⟨str "1", str "n", str "d", 1, 90⟩

/-- The result row produced from the FIRST record of `dsDup` with score
100. -/
def resDup : Resultado := ⟨str "1", str "n1", str "a", 1, 100⟩

/-- The result row the claimed pipeline produces from the sole record of
`dsC1` (name match, score 100). -/
def resC1 : Resultado := ⟨str "1", str "alfa", str "beta", 7, 100⟩

/-! ## Helper lemmas -/

/-- Mapping a projection over a `filterMap` yields a sublist of mapping a
compatible projection over the argument list. -/
theorem map_filterMap_sublist {α β γ : Type} (f : α → Option β) (g : β → γ)
    (h : α → γ) (hfg : ∀ a b, f a = some b → g b = h a) :
    ∀ l : List α, ((l.filterMap f).map g).Sublist (l.map h) := by
  intro l
  induction l with
  | nil => simp
  | cons a t ih =>
    rw [List.filterMap_cons, List.map_cons]
    cases hfa : f a with
    | none => exact ih.cons (h a)
    | some b =>
      rw [List.map_cons, hfg a b hfa]
      exact ih.cons₂ (h a)

/-- `scoreDesc` sorting produces a list `Pairwise` in `scoreDesc`. -/
theorem pairwise_mergeSort_scoreDesc {α : Type} (l : List (α × Nat)) :
    (l.mergeSort scoreDesc).Pairwise (fun a b => scoreDesc a b) := by
  apply List.sorted_mergeSort
  · intro a b c hab hbc
    simp only [scoreDesc, decide_eq_true_eq] at *
    omega
  · intro a b
    simp only [scoreDesc]
    by_cases h : b.2 ≤ a.2
    · simp [h]
    · simp [h]
      omega

/-- A `filterMap` over an `if` guard is a `filterMap` over the filtered
list. -/
theorem filterMap_ite {α β : Type} (p : α → Prop) [DecidablePred p]
    (g : α → Option β) :
    ∀ l : List α,
      (l.filterMap (fun a => if p a then g a else none)) =
        (l.filter (fun a => p a)).filterMap g := by
  intro l
  induction l with
  | nil => simp
  | cons a t ih =>
    by_cases hp : p a
    · cases hga : g a with
      | none => simp [List.filterMap_cons, List.filter_cons, hp, hga, ih]
      | some b => simp [List.filterMap_cons, List.filter_cons, hp, hga, ih]
    · simp [List.filterMap_cons, List.filter_cons, hp, ih]

/-- On a list sorted descending by score, filtering by a score threshold
commutes with truncation. -/
theorem filter_take_of_sorted {α : Type} (t : Nat) :
    ∀ (l : List (α × Nat)) (k : Nat),
      l.Pairwise (fun a b => scoreDesc a b) →
      (l.take k).filter (fun m => t ≤ m.2) =
        ((l.filter (fun m => t ≤ m.2)).take k) := by
  intro l
  induction l with
  | nil => simp
  | cons a l' ih =>
    intro k hp
    cases k with
    | zero => simp
    | succ k =>
      by_cases ht : t ≤ a.2
      · simp [List.take_succ_cons, List.filter_cons, ht, ih k hp.of_cons]
      · have hall : ∀ b ∈ l', ¬ (t ≤ b.2) := by
          intro b hb
          have := List.rel_of_pairwise_cons hp hb
          simp only [scoreDesc, decide_eq_true_eq] at this
          omega
        have h1 : l'.filter (fun m => decide (t ≤ m.2)) = [] := by
          rw [List.filter_eq_nil_iff]
          intro b hb
          simp [hall b hb]
        have h2 : (l'.take k).filter (fun m => decide (t ≤ m.2)) = [] := by
          rw [List.filter_eq_nil_iff]
          intro b hb
          simp [hall b (List.mem_of_mem_take hb)]
        simp [List.take_succ_cons, List.filter_cons, ht, h1, h2]

/-- A two-element list that is already descending is left in place by the
stable sort. -/
theorem mergeSort_pair {α : Type} (a b : α × Nat) (h : b.2 ≤ a.2) :
    [a, b].mergeSort scoreDesc = [a, b] :=
  List.mergeSort_of_sorted (by simp [scoreDesc, h])

/-- ASCII lowering is idempotent. -/
theorem pyLowerChar_idem (c : Nat) :
    pyLowerChar (pyLowerChar c) = pyLowerChar c := by
  by_cases h : 65 ≤ c ∧ c ≤ 90
  · have h1 : pyLowerChar c = c + 32 := by unfold pyLowerChar; rw [if_pos h]
    rw [h1]
    unfold pyLowerChar
    rw [if_neg (by omega)]
  · have h1 : pyLowerChar c = c := by unfold pyLowerChar; rw [if_neg h]
    rw [h1, h1]

/-- Lowering does not change whether a code point is whitespace. -/
theorem pyIsSpace_pyLowerChar (c : Nat) :
    pyIsSpace (pyLowerChar c) = pyIsSpace c := by
  by_cases h : 65 ≤ c ∧ c ≤ 90
  · have h1 : pyLowerChar c = c + 32 := by unfold pyLowerChar; rw [if_pos h]
    rw [h1]
    have h2 : pyIsSpace (c + 32) = false := by
      unfold pyIsSpace
      simp only [Bool.or_eq_false_iff, decide_eq_false_iff_not]
      omega
    have h3 : pyIsSpace c = false := by
      unfold pyIsSpace
      simp only [Bool.or_eq_false_iff, decide_eq_false_iff_not]
      omega
    rw [h2, h3]
  · have h1 : pyLowerChar c = c := by unfold pyLowerChar; rw [if_neg h]
    rw [h1]

/-- A map whose function fixes every element of the list is the identity. -/
theorem map_eq_self_of_fixed {α : Type} (f : α → α) :
    ∀ l : List α, (∀ c ∈ l, f c = c) → l.map f = l := by
  intro l
  induction l with
  | nil => intro _; rfl
  | cons a t ih =>
    intro h
    rw [List.map_cons, h a (by simp), ih (fun c hc => h c (by simp [hc]))]

/-- Stripping only removes characters. -/
theorem mem_of_mem_pyStrip {c : Nat} {l : Str} (h : c ∈ pyStrip l) : c ∈ l := by
  unfold pyStrip at h
  rw [List.mem_reverse] at h
  have h2 : c ∈ (l.dropWhile pyIsSpace).reverse :=
    (List.dropWhile_sublist _).mem h
  rw [List.mem_reverse] at h2
  exact (List.dropWhile_sublist _).mem h2

/-- Every character of the collapsed string is a non-whitespace character
of the input, or the space character 32. -/
theorem mem_collapseAux {c : Nat} :
    ∀ (b : Bool) (s : Str), c ∈ collapseAux b s →
      (c ∈ s ∧ pyIsSpace c = false) ∨ c = 32 := by
  intro b s
  induction s generalizing b with
  | nil => intro h; cases b <;> simp [collapseAux] at h
  | cons a t ih =>
    intro h
    by_cases ha : pyIsSpace a
    · cases b
      · simp only [collapseAux, if_pos ha] at h
        rcases List.mem_cons.mp h with h32 | hmem
        · exact Or.inr h32
        · rcases ih true hmem with ⟨hm, hns⟩ | h32
          · exact Or.inl ⟨List.mem_cons_of_mem a hm, hns⟩
          · exact Or.inr h32
      · simp only [collapseAux, if_pos ha] at h
        rcases ih true h with ⟨hm, hns⟩ | h32
        · exact Or.inl ⟨List.mem_cons_of_mem a hm, hns⟩
        · exact Or.inr h32
    · have ha' : pyIsSpace a = false := by
        cases hq : pyIsSpace a
        · rfl
        · exact absurd hq ha
      have hstep : ∀ bb : Bool, c ∈ a :: collapseAux bb t →
          (c ∈ a :: t ∧ pyIsSpace c = false) ∨ c = 32 := by
        intro bb hm
        rcases List.mem_cons.mp hm with hca | hmem
        · exact Or.inl ⟨by simp [hca], by rw [hca]; exact ha'⟩
        · rcases ih bb hmem with ⟨hm2, hns⟩ | h32
          · exact Or.inl ⟨List.mem_cons_of_mem a hm2, hns⟩
          · exact Or.inr h32
      cases b
      · simp only [collapseAux, if_neg ha] at h
        exact hstep false h
      · simp only [collapseAux, if_neg ha] at h
        exact hstep false h

/-- Non-whitespace characters of the input survive collapsing. -/
theorem mem_collapseAux_of_nonspace {c : Nat} (hc : pyIsSpace c = false) :
    ∀ (b : Bool) (s : Str), c ∈ s → c ∈ collapseAux b s := by
  intro b s
  induction s generalizing b with
  | nil => intro h; cases h
  | cons a t ih =>
    intro h
    rcases List.mem_cons.mp h with hca | hmem
    · have ha : ¬ (pyIsSpace a = true) := by rw [← hca]; simp [hc]
      cases b
      · simp only [collapseAux, if_neg ha]
        exact hca ▸ List.mem_cons_self _ _
      · simp only [collapseAux, if_neg ha]
        exact hca ▸ List.mem_cons_self _ _
    · by_cases ha : pyIsSpace a
      · cases b
        · simp only [collapseAux, if_pos ha]
          exact List.mem_cons_of_mem 32 (ih true hmem)
        · simp only [collapseAux, if_pos ha]
          exact ih true hmem
      · cases b
        · simp only [collapseAux, if_neg ha]
          exact List.mem_cons_of_mem a (ih false hmem)
        · simp only [collapseAux, if_neg ha]
          exact List.mem_cons_of_mem a (ih false hmem)

/-- Stripping yields the empty string exactly when everything is
whitespace. -/
theorem pyStrip_eq_nil_iff (l : Str) :
    pyStrip l = [] ↔ ∀ c ∈ l, pyIsSpace c = true := by
  unfold pyStrip
  rw [List.reverse_eq_nil_iff, List.dropWhile_eq_nil_iff]
  constructor
  · intro h c hc
    by_cases hsp : pyIsSpace c = true
    · exact hsp
    · exfalso
      have hcd : c ∈ l.dropWhile pyIsSpace := by
        have happ := List.takeWhile_append_dropWhile pyIsSpace l
        rw [← happ] at hc
        rcases List.mem_append.mp hc with h1 | h2
        · exact absurd (List.mem_takeWhile_imp h1) hsp
        · exact h2
      exact hsp (h c (List.mem_reverse.mpr hcd))
  · intro h c hc
    rw [List.mem_reverse] at hc
    exact h c ((List.dropWhile_sublist _).mem hc)

/-- If the query normalizes to empty then it also strips to empty (with
this code's normalizer — lowercase plus whitespace collapse — the two
conditions coincide). -/
theorem pyStrip_eq_nil_of_limparUm {busca : Str} (h : limparUm busca = []) :
    pyStrip busca = [] := by
  rw [pyStrip_eq_nil_iff]
  intro c hc
  by_contra hns
  have hns' : pyIsSpace c = false := by
    cases hq : pyIsSpace c
    · rfl
    · exact absurd hq hns
  have h1 : pyLowerChar c ∈ pyLower busca := List.mem_map_of_mem _ hc
  have h2 : pyIsSpace (pyLowerChar c) = false := by
    rw [pyIsSpace_pyLowerChar]
    exact hns'
  have h3 : pyLowerChar c ∈ collapseAux false (pyLower busca) :=
    mem_collapseAux_of_nonspace h2 false _ h1
  unfold limparUm collapseWs at h
  rw [pyStrip_eq_nil_iff] at h
  have h4 := h _ h3
  rw [h4] at h2
  exact absurd h2 (by decide)

/-- Unfolding of right strip over a cons cell. -/
theorem rstrip_cons (c : Nat) (X : Str) :
    rstrip (c :: X) =
      if rstrip X = [] then (if pyIsSpace c then [] else [c])
      else c :: rstrip X := by
  unfold rstrip
  rw [List.reverse_cons, List.dropWhile_append]
  by_cases h : (X.reverse.dropWhile pyIsSpace).isEmpty
  · rw [if_pos h]
    have hnil : (X.reverse.dropWhile pyIsSpace).reverse = [] := by
      rw [List.reverse_eq_nil_iff]
      exact List.isEmpty_iff.mp h
    rw [if_pos hnil]
    cases hc : pyIsSpace c <;> simp [List.dropWhile_cons, hc]
  · rw [if_neg h]
    have hnil : ¬ ((X.reverse.dropWhile pyIsSpace).reverse = []) := by
      rw [List.reverse_eq_nil_iff]
      intro hx
      rw [hx] at h
      exact h rfl
    rw [if_neg hnil, List.reverse_append]
    rfl

/-- Right strip keeps a non-whitespace head. -/
theorem rstrip_cons_nonspace {c : Nat} (hc : pyIsSpace c = false) (X : Str) :
    rstrip (c :: X) = c :: rstrip X := by
  rw [rstrip_cons]
  by_cases h : rstrip X = []
  · rw [if_pos h, if_neg (by simp [hc]), h]
  · rw [if_neg h]

/-- The word splitter produces no empty word. -/
theorem wordsAux_ne_nil :
    ∀ (s : Str) (cur : Str), ∀ w ∈ wordsAux cur s, w ≠ [] := by
  intro s
  induction s with
  | nil =>
    intro cur w hw
    unfold wordsAux at hw
    by_cases hcn : cur = []
    · rw [if_pos hcn] at hw
      cases hw
    · rw [if_neg hcn] at hw
      have heq : w = cur.reverse := List.mem_singleton.mp hw
      subst heq
      simpa using hcn
  | cons a t ih =>
    intro cur w hw
    unfold wordsAux at hw
    by_cases ha : pyIsSpace a
    · rw [if_pos ha] at hw
      by_cases hcn : cur = []
      · rw [if_pos hcn] at hw
        exact ih [] w hw
      · rw [if_neg hcn] at hw
        rcases List.mem_cons.mp hw with heq | hmem
        · subst heq
          simpa using hcn
        · exact ih [] w hmem
    · rw [if_neg ha] at hw
      exact ih (a :: cur) w hw

/-- The word splitter produces only whitespace-free words (given a
whitespace-free accumulator). -/
theorem wordsAux_nonspace :
    ∀ (s : Str) (cur : Str), (∀ c ∈ cur, pyIsSpace c = false) →
      ∀ w ∈ wordsAux cur s, ∀ c ∈ w, pyIsSpace c = false := by
  intro s
  induction s with
  | nil =>
    intro cur hcur w hw c hc
    unfold wordsAux at hw
    by_cases hcn : cur = []
    · rw [if_pos hcn] at hw
      cases hw
    · rw [if_neg hcn] at hw
      have heq : w = cur.reverse := List.mem_singleton.mp hw
      subst heq
      exact hcur c (List.mem_reverse.mp hc)
  | cons a t ih =>
    intro cur hcur w hw c hc
    unfold wordsAux at hw
    by_cases ha : pyIsSpace a
    · rw [if_pos ha] at hw
      by_cases hcn : cur = []
      · rw [if_pos hcn] at hw
        exact ih [] (by simp) w hw c hc
      · rw [if_neg hcn] at hw
        rcases List.mem_cons.mp hw with heq | hmem
        · subst heq
          exact hcur c (List.mem_reverse.mp hc)
        · exact ih [] (by simp) w hmem c hc
    · rw [if_neg ha] at hw
      refine ih (a :: cur) ?_ w hw c hc
      intro d hd
      rcases List.mem_cons.mp hd with heq | hmem
      · subst heq
        exact eq_false_of_ne_true ha
      · exact hcur d hmem

/-- Joining nonempty words yields the empty string only for the empty word
list. -/
theorem joinSp_eq_nil_iff (ws : List Str) (hne : ∀ w ∈ ws, w ≠ []) :
    joinSp ws = [] ↔ ws = [] := by
  cases ws with
  | nil => simp [joinSp]
  | cons w ws' =>
    cases ws' with
    | nil =>
      simp only [joinSp]
      constructor
      · intro h
        exact absurd h (hne w (by simp))
      · intro h
        cases h
    | cons v ws'' =>
      simp only [joinSp]
      constructor
      · intro h
        rcases List.append_eq_nil.mp h with ⟨_, h2⟩
        cases h2
      · intro h
        cases h

/-- Reading a whitespace-free word prefix just moves it into the
accumulator. -/
theorem wordsAux_append_word :
    ∀ (w : Str), (∀ c ∈ w, pyIsSpace c = false) →
      ∀ (cur r : Str), wordsAux cur (w ++ r) = wordsAux (w.reverse ++ cur) r := by
  intro w
  induction w with
  | nil => intro _ cur r; simp
  | cons a w' ih =>
    intro hw cur r
    have ha : pyIsSpace a = false := hw a (by simp)
    rw [List.cons_append]
    show wordsAux cur (a :: (w' ++ r)) = wordsAux ((a :: w').reverse ++ cur) r
    simp only [wordsAux]
    rw [if_neg (by simp [ha])]
    rw [ih (fun c hc => hw c (by simp [hc])) (a :: cur) r]
    have harg : w'.reverse ++ (a :: cur) = (a :: w').reverse ++ cur := by
      rw [List.reverse_cons, List.append_assoc]
      rfl
    rw [harg]

/-- The word list of a join of nonempty whitespace-free words is that word
list back. -/
theorem pyWords_joinSp (ws : List Str)
    (hne : ∀ w ∈ ws, w ≠ [])
    (hns : ∀ w ∈ ws, ∀ c ∈ w, pyIsSpace c = false) :
    pyWords (joinSp ws) = ws := by
  induction ws with
  | nil => rfl
  | cons w ws' ih =>
    have hwrev : ¬ (w.reverse = []) := by
      simpa using hne w (by simp)
    cases ws' with
    | nil =>
      show wordsAux [] (joinSp [w]) = [w]
      have hmv := wordsAux_append_word w (hns w (by simp)) [] []
      rw [List.append_nil, List.append_nil] at hmv
      show wordsAux [] w = [w]
      rw [hmv]
      unfold wordsAux
      rw [if_neg hwrev, List.reverse_reverse]
    | cons v ws'' =>
      show wordsAux [] (joinSp (w :: v :: ws'')) = w :: v :: ws''
      have hj : joinSp (w :: v :: ws'') = w ++ 32 :: joinSp (v :: ws'') := rfl
      rw [hj]
      rw [wordsAux_append_word w (hns w (by simp)) [] _]
      rw [List.append_nil]
      show wordsAux w.reverse (32 :: joinSp (v :: ws'')) = w :: v :: ws''
      unfold wordsAux
      rw [if_pos (by decide), if_neg hwrev, List.reverse_reverse]
      have hih := ih (fun u hu => hne u (by simp [hu]))
        (fun u hu => hns u (by simp [hu]))
      exact congrArg (fun l => w :: l) hih

/-- Dropping leading whitespace from a collapsed string is collapsing with
the in-run flag set. -/
theorem dropWhile_collapseAux :
    ∀ (s : Str) (b : Bool),
      (collapseAux b s).dropWhile pyIsSpace = collapseAux true s := by
  intro s
  induction s with
  | nil => intro b; cases b <;> rfl
  | cons a t ih =>
    intro b
    by_cases ha : pyIsSpace a
    · cases b
      · simp only [collapseAux, if_pos ha]
        rw [List.dropWhile_cons, if_pos (by decide)]
        exact ih true
      · simp only [collapseAux, if_pos ha]
        exact ih true
    · have ha' : pyIsSpace a = false := eq_false_of_ne_true ha
      cases b
      · simp only [collapseAux, if_neg ha]
        rw [List.dropWhile_cons, if_neg (by simp [ha'])]
      · simp only [collapseAux, if_neg ha]
        rw [List.dropWhile_cons, if_neg (by simp [ha'])]

/-- The heart of the normalizer characterization: right-stripping the
collapsed string (with a whitespace run in progress) is joining its words,
and with a pending word in the accumulator the join carries that word in
front. -/
theorem collapse_words :
    ∀ s : Str,
      (rstrip (collapseAux true s) = joinSp (wordsAux [] s)) ∧
      (∀ cur : Str, cur ≠ [] →
        joinSp (wordsAux cur s) = cur.reverse ++ rstrip (collapseAux false s)) := by
  intro s
  induction s with
  | nil =>
    constructor
    · rfl
    · intro cur hc
      show joinSp (wordsAux cur []) = cur.reverse ++ rstrip (collapseAux false [])
      unfold wordsAux
      rw [if_neg hc]
      show joinSp [cur.reverse] = cur.reverse ++ rstrip []
      show cur.reverse = cur.reverse ++ rstrip []
      rw [show rstrip [] = [] from rfl, List.append_nil]
  | cons a t ih =>
    obtain ⟨ih1, ih2⟩ := ih
    by_cases ha : pyIsSpace a
    · constructor
      · simp only [collapseAux, if_pos ha]
        unfold wordsAux
        rw [if_pos ha, if_pos rfl]
        exact ih1
      · intro cur hc
        unfold wordsAux
        rw [if_pos ha, if_neg hc]
        simp only [collapseAux, if_pos ha]
        rw [rstrip_cons]
        by_cases hws : wordsAux [] t = []
        · have hr : rstrip (collapseAux true t) = [] := by
            rw [ih1, hws]
            rfl
          rw [if_pos hr, if_pos (by decide : pyIsSpace 32 = true), hws]
          show joinSp [cur.reverse] = cur.reverse ++ []
          rw [List.append_nil]
          rfl
        · have hr : ¬ (rstrip (collapseAux true t) = []) := by
            rw [ih1, joinSp_eq_nil_iff _ (wordsAux_ne_nil t [])]
            exact hws
          rw [if_neg hr, ih1]
          rcases hlist : wordsAux [] t with _ | ⟨v, ws''⟩
          · exact absurd hlist hws
          · rfl
    · have ha' : pyIsSpace a = false := eq_false_of_ne_true ha
      constructor
      · simp only [collapseAux, if_neg ha]
        unfold wordsAux
        rw [if_neg ha]
        rw [rstrip_cons_nonspace ha']
        have h2 := ih2 [a] (by simp)
        rw [h2]
        rfl
      · intro cur hc
        unfold wordsAux
        rw [if_neg ha]
        simp only [collapseAux, if_neg ha]
        rw [rstrip_cons_nonspace ha']
        rw [ih2 (a :: cur) (by simp)]
        rw [List.reverse_cons, List.append_assoc]
        rfl

/-- The normalizer of the code characterized as tokenize-and-rejoin:
lowercase, split into whitespace-separated words, rejoin with single
spaces. -/
theorem limparUm_words_eq (s : Str) :
    limparUm s = joinSp (pyWords (pyLower s)) := by
  show rstrip ((collapseAux false (pyLower s)).dropWhile pyIsSpace) =
    joinSp (wordsAux [] (pyLower s))
  rw [dropWhile_collapseAux]
  exact (collapse_words (pyLower s)).1

/-! ## Claim theorems -/

/-- C10: for every scorer, prepared dataset, query and threshold, the number
of entries in the result sequence returned by the search block never exceeds
the configured candidate limit (the `limite_resultados` selectbox value,
one of 5/10/15/20, default 10): the per-extraction limit passed to
`process.extract` also caps the final result count. -/
theorem rank_length_le_limite (sc : Str → Str → Nat) (ds : List Projeto)
    (busca : Str) (precisao limite : Nat) :
    (rank sc ds busca precisao limite).length ≤ limite := by
  unfold rank
  refine Nat.le_trans (List.length_filterMap_le _ _) ?_
  unfold extract
  exact Nat.le_trans (List.length_take_le _ _) (Nat.le_refl _)

/-- C4: for a fixed scorer, prepared dataset, query and limit, every result
entry returned at the higher threshold `t2` is also returned at the lower
threshold `t1 < t2`: the result set at `t2` is a subset of the result set at
`t1`. -/
theorem rank_threshold_mono (sc : Str → Str → Nat) (ds : List Projeto)
    (busca : Str) (limite t1 t2 : Nat) (h : t1 < t2) (r : Resultado)
    (hr : r ∈ rank sc ds busca t2 limite) :
    r ∈ rank sc ds busca t1 limite := by
  unfold rank at hr ⊢
  rw [List.mem_filterMap] at hr ⊢
  obtain ⟨m, hm, he⟩ := hr
  refine ⟨m, hm, ?_⟩
  by_cases h2 : t2 ≤ m.2
  · have h1 : t1 ≤ m.2 := by omega
    rw [if_pos h2] at he
    rw [if_pos h1]
    exact he
  · rw [if_neg h2] at he
    exact absurd he (by simp)

/-- C5: when every raw row lacks a non-null value in at least one of the
four required columns (so that `dropna` leaves zero rows),
`processar_arquivo` fails (`st.error` and `return None`, modeled `none`)
rather than returning an empty dataset. -/
theorem processar_arquivo_none_of_all_incomplete (rows : List RawRow)
    (h : ∀ r ∈ rows, rowCompleta r = false) :
    processar_arquivo rows = none := by
  unfold processar_arquivo
  have hnil : rows.filterMap toProjeto = [] := by
    rw [List.filterMap_eq_nil_iff]
    intro r hr
    have hrc := h r hr
    obtain ⟨i, n, d, c⟩ := r
    cases i <;> cases n <;> cases d <;> cases c <;>
      simp_all [toProjeto, rowCompleta]
  rw [hnil]
  rfl

/-- Witness for C5 at the concrete raw dataset `[rawSemCusto]` (every row
missing `Custo proposto`). -/
theorem processar_arquivo_none_of_all_incomplete_witness :
    (∀ r ∈ [rawSemCusto], rowCompleta r = false) ∧
      processar_arquivo [rawSemCusto] = none :=
  ⟨by decide, processar_arquivo_none_of_all_incomplete [rawSemCusto]
    (by decide)⟩

/-- C7: for every scorer, prepared dataset, query, threshold and limit, the
result sequence built by the search block is sorted by similarity score in
descending order. -/
theorem rank_sorted_desc (sc : Str → Str → Nat) (ds : List Projeto)
    (busca : Str) (precisao limite : Nat) :
    ((rank sc ds busca precisao limite).map
      (fun r => r.similaridade)).Pairwise (fun a b => b ≤ a) := by
  have hsorted := pairwise_mergeSort_scoreDesc
    ((ds.map (fun p => p.descricaoLimpa)).map
      (fun c => (c, sc (limparUm busca) c)))
  have htake :
      ((((ds.map (fun p => p.descricaoLimpa)).map
        (fun c => (c, sc (limparUm busca) c))).mergeSort
          scoreDesc).take limite).Pairwise (fun a b => scoreDesc a b) :=
    List.Pairwise.sublist (List.take_sublist _ _) hsorted
  have hsub := map_filterMap_sublist
    (fun m : Str × Nat =>
      if precisao ≤ m.2 then
        (ds.find? (fun p => p.descricaoLimpa == m.1)).map
          (fun p => buildResultado p m.2)
      else none)
    (fun r => r.similaridade) (fun m => m.2) ?_
    ((((ds.map (fun p => p.descricaoLimpa)).map
      (fun c => (c, sc (limparUm busca) c))).mergeSort scoreDesc).take limite)
  · have hmap : ((((ds.map (fun p => p.descricaoLimpa)).map
        (fun c => (c, sc (limparUm busca) c))).mergeSort
          scoreDesc).take limite).map (fun m => m.2)
        |>.Pairwise (fun a b => b ≤ a) := by
      rw [List.pairwise_map]
      refine htake.imp ?_
      intro a b hab
      simpa [scoreDesc] using hab
    exact List.Pairwise.sublist hsub hmap
  · intro m r he
    simp only [] at he
    show r.similaridade = m.2
    by_cases hp : precisao ≤ m.2
    · rw [if_pos hp] at he
      rw [Option.map_eq_some'] at he
      obtain ⟨p, hfind, hbuild⟩ := he
      rw [← hbuild]
      rfl
    · rw [if_neg hp] at he
      exact absurd he (by simp)

/-- C8: the ranking of the search block is deterministic, tie order
included: its output coincides with `rank_det`, which orders the scored
candidates by the strict total lexicographic order "score descending, then
dataset position ascending".  A strict total order admits a unique sorted
arrangement, so identical inputs (dataset, query, threshold, limit, scorer)
always give the identical ordered output, including the relative order of
tied scores, which is the dataset order. -/
theorem rank_deterministic (sc : Str → Str → Nat) (ds : List Projeto)
    (busca : Str) (precisao limite : Nat) :
    rank sc ds busca precisao limite = rank_det sc ds busca precisao limite := by
  unfold rank rank_det extract extract_det
  rw [List.mergeSort_enum]

/-- Witness for C4 at a concrete input: `res90` is returned at threshold 80
and, by `rank_threshold_mono`, also at threshold 70. -/
theorem rank_threshold_mono_witness :
    70 < 80 ∧ res90 ∈ rank sc90 ds0 (str "x") 70 10 := by
  have he : rank sc90 ds0 (str "x") 80 10 = [res90] := by
    unfold rank extract ds0
    simp only [List.map_cons, List.map_nil, List.mergeSort_singleton]
    decide
  refine ⟨by decide, rank_threshold_mono sc90 ds0 (str "x") 10 70 80
    (by decide) res90 ?_⟩
  rw [he]
  exact List.mem_singleton.mpr rfl

/-- C3 counterexample: on `dsDup`, whose two records share the cleaned
description `"a"`, the query `"a"` at threshold 1 with limit 2 returns TWO
result rows that both reference the FIRST record (the lookup
`info_df[info_df['Descrições_limpas'] == descricao].iloc[0]` always picks
the first row with that cleaned description), so two entries of the result
sequence reference the same record identity. -/
theorem rank_duplicate_record_counterexample :
    rank scEq dsDup (str "a") 1 2 = [resDup, resDup] := by
  unfold rank extract dsDup
  simp only [List.map_cons, List.map_nil]
  rw [mergeSort_pair (str "a", scEq (limparUm (str "a")) (str "a"))
    (str "a", scEq (limparUm (str "a")) (str "a")) (by decide)]
  decide

/-- C1 counterexample: on `dsC1`, whose sole record has name `"alfa"` and
description `"beta"`, the query `"alfa"` at threshold 90 returns NOTHING
from the code's ranking (only the description is scored, and it scores 0),
while the claimed two-field two-scorer pipeline returns the record with the
perfect name-field score 100.  The name-field scores never enter the
filter stage — the claim is false. -/
theorem rank_single_field_counterexample :
    rank scEq dsC1 (str "alfa") 90 10 = [] ∧
      rank_claimed scEq scEq dsC1 (str "alfa") 90 10 = [resC1] := by
  constructor
  · unfold rank extract dsC1
    simp only [List.map_cons, List.map_nil, List.mergeSort_singleton]
    decide
  · decide

/-- C1 (amended): the ranking step computes exactly ONE similarity score per
record — the configured scorer applied to the normalized query and the
record's cleaned DESCRIPTION — and the result is the threshold-passing
prefix of the descending-sorted scored records, truncated to the limit.
Neither the name field nor a second (partial) scoring strategy takes part:
`rank` coincides with the single-field single-scorer pipeline
`rank_desc_only`. -/
theorem rank_eq_rank_desc_only (sc : Str → Str → Nat) (ds : List Projeto)
    (busca : Str) (precisao limite : Nat) :
    rank sc ds busca precisao limite =
      rank_desc_only sc ds busca precisao limite := by
  unfold rank rank_desc_only extract
  rw [filterMap_ite (fun m : Str × Nat => precisao ≤ m.2)
    (fun m => (ds.find? (fun p => p.descricaoLimpa == m.1)).map
      (fun p => buildResultado p m.2))]
  rw [filter_take_of_sorted precisao _ limite (pairwise_mergeSort_scoreDesc _)]

/-- C2 counterexample: the code's normalizer keeps the token `"123"`, which
contains non-alphabetic characters, and (with ANY stopword set, here the
empty one, which removes the least) the claimed pipeline must drop it: the
claimed filtering steps do not happen in the code. -/
theorem limparUm_no_token_filtering_counterexample :
    limparUm (str "abc 123") = str "abc 123" ∧
      normalize_claimed [] (str "abc 123") = str "abc" ∧
      str "abc 123" ≠ str "abc" := by
  decide

/-- C2 (amended): the normalizer performs, in order, lowercasing and the
collapse of every whitespace run to a single space with trimming — stated
here as: it equals lowercasing, tokenizing on whitespace, and rejoining all
tokens with single spaces in their original relative order.  No stopword
removal and no non-alphabetic-token removal takes place: every token of the
lowercased input survives verbatim. -/
theorem limparUm_eq_join_words (s : Str) :
    limparUm s = joinSp (pyWords (pyLower s)) :=
  limparUm_words_eq s

/-- C6: the normalizer is idempotent — one pass already yields the
canonical form, so a second pass changes nothing. -/
theorem limparUm_idempotent (s : Str) :
    limparUm (limparUm s) = limparUm s := by
  have hfix : pyLower (limparUm s) = limparUm s := by
    apply map_eq_self_of_fixed
    intro c hc
    have h1 : c ∈ collapseAux false (pyLower s) := mem_of_mem_pyStrip hc
    rcases mem_collapseAux false _ h1 with ⟨hm, _⟩ | h32
    · rcases List.mem_map.mp hm with ⟨d, _, hd⟩
      rw [← hd]
      exact pyLowerChar_idem d
    · rw [h32]
      decide
  have hwords := limparUm_words_eq (limparUm s)
  rw [hfix] at hwords
  rw [hwords, limparUm_words_eq s]
  have hne : ∀ w ∈ pyWords (pyLower s), w ≠ [] := wordsAux_ne_nil (pyLower s) []
  have hns : ∀ w ∈ pyWords (pyLower s), ∀ c ∈ w, pyIsSpace c = false :=
    wordsAux_nonspace (pyLower s) [] (by simp)
  rw [pyWords_joinSp (pyWords (pyLower s)) hne hns]

/-- C3 (amended): when the records' cleaned descriptions are pairwise
distinct — which the preparation step does not enforce — no two entries of
the result sequence reference the same record: the original descriptions of
the returned entries are pairwise distinct, and in a prepared dataset a
record is determined by its description's first occurrence.  (When two
records share a cleaned description the invariant fails, see the
counterexample.) -/
theorem rank_nodup_of_nodup_descricaoLimpa (sc : Str → Str → Nat)
    (ds : List Projeto) (busca : Str) (precisao limite : Nat)
    (hprep : ∀ p ∈ ds, p.descricaoLimpa = limparUm p.descricao)
    (hnd : (ds.map (fun p => p.descricaoLimpa)).Nodup) :
    ((rank sc ds busca precisao limite).map (fun r => r.descricao)).Nodup := by
  have hperm : ((((ds.map (fun p => p.descricaoLimpa)).map
      (fun c => (c, sc (limparUm busca) c))).mergeSort scoreDesc).map
        (fun m => m.1)).Perm (ds.map (fun p => p.descricaoLimpa)) := by
    have h1 := (List.mergeSort_perm ((ds.map (fun p => p.descricaoLimpa)).map
      (fun c => (c, sc (limparUm busca) c))) scoreDesc).map (fun m => m.1)
    have h2 : (((ds.map (fun p => p.descricaoLimpa)).map
        (fun c => (c, sc (limparUm busca) c))).map (fun m => m.1)) =
        ds.map (fun p => p.descricaoLimpa) := by
      simp
    rw [h2] at h1
    exact h1
  have hnd1 : ((((ds.map (fun p => p.descricaoLimpa)).map
      (fun c => (c, sc (limparUm busca) c))).mergeSort scoreDesc).map
        (fun m => m.1)).Nodup := hperm.nodup_iff.mpr hnd
  have hnd2 : (((((ds.map (fun p => p.descricaoLimpa)).map
      (fun c => (c, sc (limparUm busca) c))).mergeSort scoreDesc).take
        limite).map (fun m => m.1)).Nodup := by
    rw [List.map_take]
    exact List.Nodup.sublist (List.take_sublist _ _) hnd1
  have hsub := map_filterMap_sublist
    (fun m : Str × Nat =>
      if precisao ≤ m.2 then
        (ds.find? (fun p => p.descricaoLimpa == m.1)).map
          (fun p => buildResultado p m.2)
      else none)
    (fun r => limparUm r.descricao) (fun m => m.1) ?_
    ((((ds.map (fun p => p.descricaoLimpa)).map
      (fun c => (c, sc (limparUm busca) c))).mergeSort scoreDesc).take limite)
  · have hnd3 := List.Nodup.sublist hsub hnd2
    have hres : ((rank sc ds busca precisao limite).map
        (fun r => limparUm r.descricao)).Nodup := hnd3
    apply List.Nodup.of_map limparUm
    have hmm : ((rank sc ds busca precisao limite).map
        (fun r => r.descricao)).map limparUm =
        (rank sc ds busca precisao limite).map
          (fun r => limparUm r.descricao) := by
      rw [List.map_map]
      rfl
    rw [hmm]
    exact hres
  · intro m r he
    simp only [] at he
    show limparUm r.descricao = m.1
    by_cases hp : precisao ≤ m.2
    · rw [if_pos hp, Option.map_eq_some'] at he
      obtain ⟨p, hfind, hbuild⟩ := he
      have hpds := List.mem_of_find?_eq_some hfind
      have hbeq := List.find?_some hfind
      simp only [] at hbeq
      have hpeq : p.descricaoLimpa = m.1 := eq_of_beq hbeq
      rw [← hbuild]
      show limparUm p.descricao = m.1
      rw [← hprep p hpds]
      exact hpeq
    · rw [if_neg hp] at he
      exact absurd he (by simp)

/-- Witness for C3 (amended) at the one-record dataset `ds0`, whose cleaned
descriptions are trivially pairwise distinct and correctly prepared. -/
theorem rank_nodup_of_nodup_descricaoLimpa_witness :
    (∀ p ∈ ds0, p.descricaoLimpa = limparUm p.descricao) ∧
      ((ds0.map (fun p => p.descricaoLimpa)).Nodup) ∧
      ((rank scZero ds0 (str "x") 0 10).map (fun r => r.descricao)).Nodup :=
  ⟨by decide, by decide,
    rank_nodup_of_nodup_descricaoLimpa scZero ds0 (str "x") 0 10
      (by decide) (by decide)⟩

/-- C9 counterexample: a degenerate (empty) query does NOT proceed through
the normal ranking path.  At the same dataset, threshold and limit, a
non-degenerate query with no match above the threshold produces the
ordinary empty-result outcome (`some []`, the "no projects found" warning),
while the empty query makes the guard `(buscar_btn or busca) and
busca.strip()` skip the search block entirely (`none`): the two outcomes
differ. -/
theorem buscar_degenerate_counterexample :
    buscar scZero ds0 (str "") 70 10 = none ∧
      buscar scZero ds0 (str "xyz") 70 10 = some [] := by
  constructor
  · decide
  · unfold buscar
    rw [if_neg (by decide)]
    unfold rank extract ds0
    simp only [List.map_cons, List.map_nil, List.mergeSort_singleton]
    decide

/-- C9 (amended): a degenerate query (the empty string, or any text that
normalizes to empty — with this normalizer that is exactly the text that
strips to empty) is not an error, but it does not reach the ranking path:
the `busca.strip()` guard skips the whole search block, an outcome distinct
from the ordinary empty result of a query that merely matches nothing. -/
theorem buscar_none_of_normalizes_empty (sc : Str → Str → Nat)
    (ds : List Projeto) (busca : Str) (precisao limite : Nat)
    (h : limparUm busca = []) :
    buscar sc ds busca precisao limite = none := by
  unfold buscar
  rw [if_pos (pyStrip_eq_nil_of_limparUm h)]

/-- Witness for C9 at the concrete whitespace-only query `"  "`. -/
theorem buscar_none_of_normalizes_empty_witness :
    limparUm (str "  ") = [] ∧ buscar scZero ds0 (str "  ") 70 10 = none :=
  ⟨by decide, buscar_none_of_normalizes_empty scZero ds0 (str "  ") 70 10
    (by decide)⟩

end Busca
